import Mathlib

set_option maxHeartbeats 1000000
set_option maxRecDepth 8000

/- Verification of the trissue reconciliation core: the Trivy-report parser
   (report-generator.ts, parseResults), the issue materializer (generateIssues),
   the title-based identity deriver (getIdentifierFromTitle), and the
   reconciliation of new vulnerability records against existing tracking issues
   (main). JS strings are modelled as `List Char`; the JS `Map` as an
   insertion-ordered association list. -/

/-- JS `String.prototype.toLowerCase`, on the ASCII range used by the action. -/
def lowerStr (s : List Char) : List Char := s.map Char.toLower

/-- The literal `" package "` required by the identity deriver's title pattern. -/
def pkgLit : List Char := (" package ").toList

/-- The literal `"package"` (the pattern's word without the surrounding spaces). -/
def pkgWord : List Char := ("package").toList

/-- Search of the lazy `(.*?)-` part of the title regex: consume characters one
    by one (never a newline, since `.` does not match newlines) until a `'-'`
    literal matches; return the consumed group and the remainder. -/
def findDash : List Char → Option (List Char × List Char)
  | [] => none
  | c :: cs =>
    if c = '-' then some ([], cs)
    else if c = '\n' then none
    else (findDash cs).map (fun p => (c :: p.1, p.2))

/-- Search of the `.*? package (.*?)-` part of the title regex after the colon,
    with full backtracking: at each position first try the `" package "`
    literal followed by a dash search; on failure consume one (non-newline)
    character and retry. Returns capture group 2. -/
def completePkg : List Char → Option (List Char)
  | [] => none
  | c :: cs =>
    if pkgLit.isPrefixOf (c :: cs) then
      match findDash (List.drop pkgLit.length (c :: cs)) with
      | some p => some p.1
      | none => if c = '\n' then none else completePkg cs
    else if c = '\n' then none else completePkg cs

/-- The title regex `^(.*?):.*? package (.*?)-` of getIdentifierFromTitle
    (part_002 / the 1.1.3 getIdentifier): lazy group 1 up to a colon whose
    suffix admits a completion, with backtracking past colons that do not.
    Returns (group 1, group 2) on a match. -/
def matchTitle : List Char → Option (List Char × List Char)
  | [] => none
  | c :: cs =>
    if c = ':' then
      match completePkg cs with
      | some g2 => some ([], g2)
      | none => (matchTitle cs).map (fun p => (c :: p.1, p.2))
    else if c = '\n' then none
    else (matchTitle cs).map (fun p => (c :: p.1, p.2))

/-- getIdentifierFromTitle (src/unnamed/part_002 lines 24-31): apply the title
    regex and return `matches[1].toLowerCase() + "-" + matches[2].toLowerCase()`,
    or null when the title does not match. -/
def getIdentifierFromTitle (t : List Char) : Option (List Char) :=
  (matchTitle t).map (fun p => lowerStr p.1 ++ '-' :: lowerStr p.2)

/-- The JS string `"open"` (TrivyIssue.state of an open issue). -/
def openStr : List Char := ("open").toList

/-- The JS string `"closed"` (TrivyIssue.state of a closed issue). -/
def closedStr : List Char := ("closed").toList

/-- One vulnerability entry of a Trivy report (interface ReportDict). -/
structure Vulnerability where
  VulnerabilityID : List Char
  PkgName : List Char
  InstalledVersion : List Char
  FixedVersion : Option (List Char)
  VulnTitle : List Char
  Description : List Char
  Severity : List Char
  PrimaryURL : List Char
  References : List (List Char)
deriving DecidableEq

/-- A tracking issue as listed by the gateway (interface TrivyIssue). -/
structure TrivyIssue where
  number : Nat
  title : List Char
  state : List Char
  labels : List (List Char)
deriving DecidableEq

/-- A normalized report record (dataclass Report). -/
structure Report where
  rid : List Char
  package : List Char
  package_name : List Char
  package_version : List Char
  package_fixed_version : Option (List Char)
  package_type : List Char
  target : List Char
  vulnerabilities : List Vulnerability
deriving DecidableEq

/-- A materialized issue (dataclass Issue). -/
structure Issue where
  iid : List Char
  report : Report
  title : List Char
  body : List Char
  hasFix : Bool
deriving DecidableEq

/-- The `Vulnerabilities` field of one result entry: either present but not a
    list (a shape the parser rejects) or a list of vulnerability entries. -/
inductive JVulns where
  | notList
  | list (vs : List Vulnerability)
deriving DecidableEq

/-- One entry of the report's `Results` list: either not a dictionary (a shape
    the parser rejects) or a record with `Type`, `Target` and an optional
    `Vulnerabilities` field (`none` models an absent field). -/
inductive JResultEntry where
  | notRecord
  | record (typeFld targetFld : List Char) (vulns : Option JVulns)
deriving DecidableEq

/-- The top-level `Results` field: either not a list (rejected) or a list of
    result entries. -/
inductive JResults where
  | notList
  | list (entries : List JResultEntry)
deriving DecidableEq

/-- The parsed report JSON (interface ReportDict). -/
structure ReportDict where
  Results : JResults
deriving DecidableEq

/-- The TypeError thrown inside parseResults on a malformed report. -/
inductive MalformedReport where
  | resultsNotList
  | resultNotRecord (idx : Nat)
  | vulnsNotList (idx : Nat)
deriving DecidableEq

/-- JS `title.split(': ')`: split on every occurrence of the two-character
    separator, leftmost first. -/
def splitCS : List Char → List (List Char)
  | [] => [[]]
  | [c] => [[c]]
  | c :: d :: rest =>
    if c = ':' ∧ d = ' ' then [] :: splitCS rest
    else
      match splitCS (d :: rest) with
      | [] => [[c]]
      | h :: t => (c :: h) :: t

/-- The identifier parseResults adds to its existing-issue set for one issue
    title (report-generator.ts lines 23-28): `titleParts[0].toLowerCase() + "-"
    + titleParts[1].toLowerCase()` when `title.split(': ')` has > 1 parts. -/
def issueSetEntry (t : List Char) : Option (List Char) :=
  match splitCS t with
  | p0 :: p1 :: _ => some (lowerStr p0 ++ '-' :: lowerStr p1)
  | _ => none

/-- The `existingIssueSet` of parseResults, as the list of its insertions
    (only membership is ever used). -/
def existingIssueSet (issues : List TrivyIssue) : List (List Char) :=
  issues.filterMap (fun i => issueSetEntry i.title)

/-- The stable identifier of one vulnerability entry:
    `vulnerability.VulnerabilityID.toLowerCase() + "-" + package_name.toLowerCase()`. -/
def vulnIdentifier (v : Vulnerability) : List Char :=
  lowerStr v.VulnerabilityID ++ '-' :: lowerStr v.PkgName

/-- JS `vulnerability['FixedVersion'] || undefined`: an absent or empty-string
    FixedVersion becomes undefined. -/
def jsOrUndefined : Option (List Char) → Option (List Char)
  | none => none
  | some s => if s = [] then none else some s

/-- The Report record parseResults builds for one vulnerability entry
    (report-generator.ts lines 57-79). -/
def buildReport (typ targ : List Char) (v : Vulnerability) : Report :=
  { rid := v.PkgName ++ '-' :: v.InstalledVersion ++ '-' :: v.VulnerabilityID
    package := v.PkgName ++ '-' :: v.InstalledVersion
    package_name := v.PkgName
    package_version := v.InstalledVersion
    package_fixed_version := jsOrUndefined v.FixedVersion
    package_type := typ
    target := targ
    vulnerabilities := [v] }

/-- Processing of one result entry by parseResults: throw on a non-record entry
    or a non-list `Vulnerabilities`; skip an entry with no `Vulnerabilities`
    field; otherwise build one Report per vulnerability entry, skipping those
    whose identifier is in the existing-issue set. -/
def parseEntry (exSet : List (List Char)) (idx : Nat) :
    JResultEntry → Except MalformedReport (List Report)
  | .notRecord => .error (.resultNotRecord idx)
  | .record _ _ none => .ok []
  | .record _ _ (some .notList) => .error (.vulnsNotList idx)
  | .record typ targ (some (.list vs)) =>
      .ok (vs.filterMap (fun v =>
        if vulnIdentifier v ∈ exSet then none else some (buildReport typ targ v)))

/-- The result-entry loop of parseResults, with the running index. -/
def parseEntries (exSet : List (List Char)) (idx : Nat) :
    List JResultEntry → Except MalformedReport (List Report)
  | [] => .ok []
  | e :: es =>
    match parseEntry exSet idx e with
    | .error err => .error err
    | .ok rs =>
      match parseEntries exSet (idx + 1) es with
      | .error err => .error err
      | .ok rest => .ok (rs ++ rest)

/-- The try-block of parseResults (report-generator.ts lines 4-83): the thrown
    TypeError, when any, as an explicit error value. -/
def parseResultsCore (d : ReportDict) (existing : List TrivyIssue) :
    Except MalformedReport (List Report) :=
  match d.Results with
  | .notList => .error .resultsNotList
  | .list es => parseEntries (existingIssueSet existing) 0 es

/-- parseResults as exported (report-generator.ts lines 4-89): the catch turns
    a thrown TypeError into null, and a successful parse with zero reports is
    also returned as null (`reports.length > 0 ? reports : null`). -/
def parseResults (d : ReportDict) (existing : List TrivyIssue) :
    Option (List Report) :=
  match parseResultsCore d existing with
  | .error _ => none
  | .ok rs => if rs.length > 0 then some rs else none

/-- The reports one well-formed result entry yields, written declaratively. -/
def entryRecords (exSet : List (List Char)) : JResultEntry → List Report
  | .record typ targ (some (.list vs)) =>
      vs.filterMap (fun v =>
        if vulnIdentifier v ∈ exSet then none else some (buildReport typ targ v))
  | _ => []

/-- The reports a well-formed entry list yields, written declaratively:
    result-major, vulnerability-minor, existing-issue matches skipped. -/
def entriesRecords (exSet : List (List Char)) (es : List JResultEntry) : List Report :=
  es.flatMap (entryRecords exSet)

/-- The reports a well-formed parse yields, written declaratively. -/
def orderedRecords (d : ReportDict) (existing : List TrivyIssue) : List Report :=
  match d.Results with
  | .notList => []
  | .list es => entriesRecords (existingIssueSet existing) es

/-- Truth of the claim-level malformation conditions for one result entry. -/
def badEntry : JResultEntry → Prop
  | .notRecord => True
  | .record _ _ (some .notList) => True
  | _ => False

instance : DecidablePred badEntry := fun e =>
  match e with
  | .notRecord => isTrue trivial
  | .record _ _ (some .notList) => isTrue trivial
  | .record _ _ none => isFalse (fun h => h)
  | .record _ _ (some (.list _)) => isFalse (fun h => h)

/-- A report is malformed when its `Results` field is not a list, some entry is
    not a record, or some entry's `Vulnerabilities` field is present but not a
    list. -/
def malformedReport (d : ReportDict) : Prop :=
  match d.Results with
  | .notList => True
  | .list es => ∃ e ∈ es, badEntry e

/-- The title generateIssues renders for one report (report-generator.ts line
    97): `VulnerabilityID + ": " + package_type + " package " + package`. -/
def issueTitle (r : Report) (v : Vulnerability) : List Char :=
  v.VulnerabilityID ++ ':' :: ' ' :: r.package_type ++ pkgLit ++ r.package

/-- The marker rendered when a report has no fixed version. -/
def noFixMarker : List Char := ("No known fix at this time").toList

/-- The body generateIssues renders for one report (report-generator.ts lines
    99-113), section by section. -/
def issueBody (r : Report) (v : Vulnerability) : List Char :=
  ("## Title\n").toList ++ v.VulnTitle ++ ("\n").toList ++
  ("## Description\n").toList ++ v.Description ++ ("\n").toList ++
  ("## Severity\n**").toList ++ v.Severity ++ ("**\n").toList ++
  ("## Fixed in Version\n**").toList ++
    (match r.package_fixed_version with
     | some fv => fv
     | none => noFixMarker) ++ ("**\n\n").toList ++
  ("## Primary URL\n").toList ++ v.PrimaryURL ++ ("\n").toList ++
  ("## Additional Information\n").toList ++
  ("**Vulnerability ID:** ").toList ++ v.VulnerabilityID ++ ("\x7d\n").toList ++
  ("**Package Name:** ").toList ++ r.package_name ++ ("\n").toList ++
  ("**Package Version:** ").toList ++ r.package_version ++ ("\n").toList ++
  ("## References\n").toList ++
    (List.intercalate ("\n").toList
      (v.References.map (fun ref => ("- ").toList ++ ref))) ++ ("\n\n").toList

/-- Materialization of one report (one turn of the generateIssues loop): reads
    `vulnerabilities[0]`; `none` models the TypeError thrown when the report
    has no vulnerability entry. `hasFix` is
    `report.package_fixed_version !== undefined`. -/
def generateIssueOfReport (r : Report) : Option Issue :=
  match r.vulnerabilities.head? with
  | none => none
  | some v =>
    some { iid := r.rid, report := r, title := issueTitle r v,
           body := issueBody r v, hasFix := r.package_fixed_version.isSome }

/-- generateIssues (report-generator.ts lines 91-124). -/
def generateIssues : List Report → Option (List Issue)
  | [] => some []
  | r :: rs =>
    match generateIssueOfReport r, generateIssues rs with
    | some i, some is => some (i :: is)
    | _, _ => none

/-- The identifier computed inline for a materialized issue in the first main
    variant (src/src/index.ts lines 67-72):
    `issue.report.vulnerabilities[0].VulnerabilityID.toLowerCase() + "-" +
    issue.report.package_name.toLowerCase()`; `none` models the TypeError on a
    report with no vulnerability entry. -/
def getRecordIdentifier (r : Report) : Option (List Char) :=
  match r.vulnerabilities.head? with
  | none => none
  | some v => some (lowerStr v.VulnerabilityID ++ '-' :: lowerStr r.package_name)

/-- JS `Map.get`: value of the first (under the no-duplicate-keys invariant,
    only) entry with the given key. -/
def mapGet : List (List Char × α) → List Char → Option α
  | [], _ => none
  | p :: m, k => if p.1 = k then some p.2 else mapGet m k

/-- JS `Map.has`. -/
def mapHas (m : List (List Char × α)) (k : List Char) : Bool :=
  match mapGet m k with
  | some _ => true
  | none => false

/-- JS `Map.set`: replace the value of an existing key in place, else append. -/
def mapSet : List (List Char × α) → List Char → α → List (List Char × α)
  | [], k, v => [(k, v)]
  | p :: m, k, v => if p.1 = k then (k, v) :: m else p :: mapSet m k v

/-- One turn of the shared map-building loops of main (part_002 lines 75-92):
    key the item by the identifier derived from its title via `Map.set`; an
    item whose title yields no identifier is skipped. -/
def buildStep (tf : β → List Char) (m : List (List Char × β)) (i : β) :
    List (List Char × β) :=
  match getIdentifierFromTitle (tf i) with
  | some k => mapSet m k i
  | none => m

/-- The fold of `buildStep` over the item list, from the empty map. -/
def buildMap (tf : β → List Char) (l : List β) : List (List Char × β) :=
  l.foldl (buildStep tf) []

/-- The `newVulnerabilities` map (part_002 lines 75-83). -/
def buildNewVulns (gis : List Issue) : List (List Char × Issue) :=
  buildMap Issue.title gis

/-- The `existingIssueIdentifiers` map (part_002 lines 86-92). -/
def buildExistingIdentifiers (issues : List TrivyIssue) : List (List Char × TrivyIssue) :=
  buildMap TrivyIssue.title issues

/-- The transition plan of one run: the stale open issues to close, the closed
    issues to reopen, and the new identifiers to create issues for, each with
    its identifier. -/
structure TransitionPlan where
  toClose : List (List Char × TrivyIssue)
  toReopen : List (List Char × TrivyIssue)
  toCreate : List (List Char × Issue)
deriving DecidableEq

/-- The reconciliation decisions of main (part_002 lines 94-142): close each
    identified existing issue that is open and absent from the new set; for
    each new identifier, reopen its existing issue when closed, create an issue
    when none exists. -/
def computePlan (newV : List (List Char × Issue))
    (exV : List (List Char × TrivyIssue)) : TransitionPlan :=
  { toClose := exV.filter (fun p => p.2.state = openStr ∧ mapHas newV p.1 = false)
    toReopen := newV.filterMap (fun p =>
      match mapGet exV p.1 with
      | some ex => if ex.state = closedStr then some (p.1, ex) else none
      | none => none)
    toCreate := newV.filterMap (fun p =>
      match mapGet exV p.1 with
      | some _ => none
      | none => some p) }

/-- reconcile (part_002 main, lines 74-142): materialize the records, key both
    sides by derived identifier, and compute the transition plan; `none` models
    the TypeError generateIssues throws on a record with no vulnerability
    entry. -/
def reconcile (rs : List Report) (issues : List TrivyIssue) : Option TransitionPlan :=
  (generateIssues rs).map
    (fun gis => computePlan (buildNewVulns gis) (buildExistingIdentifiers issues))

/-- Modelled from the spec: the tracking issue the gateway creates for one
    toCreate payload (github.ts is not part of the sources; §6 createIssue
    returns a TrackingIssue carrying the materialized title, open). The
    gateway-assigned number is irrelevant to reconciliation and modelled as 0. -/
def createdIssue (i : Issue) : TrivyIssue :=
  { number := 0, title := i.title, state := openStr, labels := [] }

/-- Modelled from the spec: executing a TransitionPlan against the Tracker
    Gateway (§5, §6; github.ts is not part of the sources): each planned close
    or reopen acts on the recorded issue number, and each toCreate payload
    becomes a fresh open issue with the materialized title. -/
def applyPlan (plan : TransitionPlan) (issues : List TrivyIssue) : List TrivyIssue :=
  issues.map
    (fun i =>
      if plan.toClose.any (fun p => p.2.number = i.number) then
        { i with state := closedStr }
      else if plan.toReopen.any (fun p => p.2.number = i.number) then
        { i with state := openStr }
      else i)
  ++ plan.toCreate.map (fun p => createdIssue p.2)

/-- The run output `fixable_vulnerability` (part_002 lines 144-146):
    whether some new vulnerability has a fix. -/
def fixableVulnerabilityExists (newV : List (List Char × Issue)) : Bool :=
  newV.any (fun p => p.2.hasFix)

/-- A sample vulnerability entry for concrete witnesses. -/
def sampleVuln : Vulnerability :=
  { VulnerabilityID := ("CVE-2024-1").toList
    PkgName := ("libfoo").toList
    InstalledVersion := ("1.0.0").toList
    FixedVersion := none
    VulnTitle := ("t").toList
    Description := ("d").toList
    Severity := ("HIGH").toList
    PrimaryURL := ("u").toList
    References := [] }

/-- A sample vulnerability whose package name contains a hyphen. -/
def hyphenVuln : Vulnerability :=
  { sampleVuln with PkgName := ("lib-foo").toList }

/-- A sample open tracking issue whose title the deriver identifies. -/
def sampleOpenIssue : TrivyIssue :=
  { number := 1
    title := ("CVE-2024-1: npm package libfoo-1.0.0").toList
    state := openStr
    labels := [] }

/-- A sample closed tracking issue with the same identifier. -/
def sampleClosedIssue : TrivyIssue :=
  { sampleOpenIssue with number := 2, state := closedStr }

/-- A sample manually-filed issue whose title the deriver does not identify. -/
def manualIssue : TrivyIssue :=
  { number := 7
    title := ("Manually filed security concern").toList
    state := openStr
    labels := [] }

/-- A sample report as the parser builds it. -/
def sampleReport : Report := buildReport ("npm").toList ("app").toList sampleVuln

/-- A sample well-formed report dictionary with one vulnerability entry. -/
def sampleDict : ReportDict :=
  ⟨.list [.record ("npm").toList ("app").toList (some (.list [sampleVuln]))]⟩

/-- The parse of `sampleDict` against no existing issues. -/
def sampleParsed : List Report := [sampleReport]



theorem isPrefixOf_eq_true_iff : ∀ (l s : List Char),
    l.isPrefixOf s = true ↔ ∃ t, s = l ++ t := by
  intro l
  induction l with
  | nil => intro s; simp [List.isPrefixOf]
  | cons a l ih =>
    intro s
    cases s with
    | nil => simp [List.isPrefixOf]
    | cons b s =>
      simp only [List.isPrefixOf, Bool.and_eq_true, beq_iff_eq, ih]
      constructor
      · rintro ⟨hab, t, ht⟩
        exact ⟨t, by simp [hab, ht]⟩
      · rintro ⟨t, ht⟩
        simp only [List.cons_append, List.cons.injEq] at ht
        exact ⟨ht.1.symm, t, ht.2⟩

theorem pkgLit_eq : pkgLit = ' ' :: (pkgWord ++ [' ']) := by decide

theorem pkgLit_append (z : List Char) :
    pkgLit ++ z = ' ' :: ((pkgWord ++ [' ']) ++ z) := by
  rw [pkgLit_eq]; rfl

theorem findDash_sound : ∀ {s g r : List Char}, findDash s = some (g, r) →
    s = g ++ '-' :: r ∧ '\n' ∉ g := by
  intro s
  induction s with
  | nil => intro g r h; simp [findDash] at h
  | cons c cs ih =>
    intro g r h
    rw [findDash] at h
    split at h
    next hc =>
      simp only [Option.some.injEq, Prod.mk.injEq] at h
      obtain ⟨hg, hr⟩ := h
      subst hc
      rw [← hg, ← hr]
      exact ⟨rfl, by simp⟩
    next hc =>
      split at h
      next hn => simp at h
      next hn =>
        rcases hfd : findDash cs with _ | ⟨⟨g', r'⟩⟩
        · rw [hfd] at h; simp at h
        · rw [hfd] at h
          simp only [Option.map_some', Option.some.injEq, Prod.mk.injEq] at h
          obtain ⟨hg, hr⟩ := h
          obtain ⟨hs, hng⟩ := ih hfd
          rw [← hg, ← hr]
          refine ⟨by simp [hs], ?_⟩
          simp only [List.mem_cons, not_or]
          exact ⟨Ne.symm hn, hng⟩

theorem findDash_isSome : ∀ {g : List Char}, '\n' ∉ g → ∀ (r : List Char),
    (findDash (g ++ '-' :: r)).isSome = true := by
  intro g
  induction g with
  | nil => intro _ r; simp [findDash]
  | cons c cs ih =>
    intro hg r
    simp only [List.mem_cons, not_or] at hg
    rw [List.cons_append, findDash]
    by_cases hc : c = '-'
    · rw [if_pos hc]; rfl
    · rw [if_neg hc, if_neg (Ne.symm hg.1)]
      simpa using ih hg.2 r

theorem findDash_det : ∀ {g : List Char}, '-' ∉ g → '\n' ∉ g → ∀ (r : List Char),
    findDash (g ++ '-' :: r) = some (g, r) := by
  intro g
  induction g with
  | nil => intro _ _ r; simp [findDash]
  | cons c cs ih =>
    intro hd hn r
    simp only [List.mem_cons, not_or] at hd hn
    rw [List.cons_append, findDash, if_neg (Ne.symm hd.1), if_neg (Ne.symm hn.1),
      ih hd.2 hn.2 r, Option.map_some']

theorem completePkg_sound : ∀ {s g : List Char}, completePkg s = some g →
    ∃ b d, s = b ++ (pkgLit ++ (g ++ '-' :: d)) ∧ '\n' ∉ b ∧ '\n' ∉ g := by
  intro s
  induction s with
  | nil => intro g h; simp [completePkg] at h
  | cons c cs ih =>
    intro g h
    rw [completePkg] at h
    split at h
    next hp =>
      split at h
      next p hfd =>
        simp only [Option.some.injEq] at h
        obtain ⟨t, ht⟩ := (isPrefixOf_eq_true_iff _ _).mp hp
        have hdrop : List.drop pkgLit.length (c :: cs) = t := by
          rw [ht, List.drop_left]
        rw [hdrop] at hfd
        obtain ⟨htg, hng⟩ := findDash_sound hfd
        refine ⟨[], p.2, ?_, by simp, by rw [← h]; exact hng⟩
        rw [List.nil_append, ht, htg, h]
      next hfd =>
        split at h
        next hn => simp at h
        next hn =>
          obtain ⟨b, d, hs, hb, hg2⟩ := ih h
          refine ⟨c :: b, d, by simp [hs], ?_, hg2⟩
          simp only [List.mem_cons, not_or]
          exact ⟨Ne.symm hn, hb⟩
    next hp =>
      split at h
      next hn => simp at h
      next hn =>
        obtain ⟨b, d, hs, hb, hg2⟩ := ih h
        refine ⟨c :: b, d, by simp [hs], ?_, hg2⟩
        simp only [List.mem_cons, not_or]
        exact ⟨Ne.symm hn, hb⟩

theorem completePkg_isSome : ∀ {b : List Char}, '\n' ∉ b → ∀ {g : List Char}, '\n' ∉ g →
    ∀ (d : List Char), (completePkg (b ++ (pkgLit ++ (g ++ '-' :: d)))).isSome = true := by
  intro b
  induction b with
  | nil =>
    intro _ g hg d
    rw [List.nil_append, pkgLit_append, completePkg]
    rw [if_pos ((isPrefixOf_eq_true_iff _ _).mpr ⟨g ++ '-' :: d, (pkgLit_append _).symm⟩)]
    rw [← pkgLit_append, List.drop_left]
    rcases hfd : findDash (g ++ '-' :: d) with _ | p
    · have := findDash_isSome hg d
      rw [hfd] at this
      simp at this
    · rfl
  | cons c cs ih =>
    intro hb g hg d
    simp only [List.mem_cons, not_or] at hb
    rw [List.cons_append, completePkg]
    split
    · split
      · rfl
      · rw [if_neg (Ne.symm hb.1)]
        exact ih hb.2 hg d
    · rw [if_neg (Ne.symm hb.1)]
      exact ih hb.2 hg d

theorem wordSep_eq : ∀ {w : List Char}, ' ' ∉ w → ∀ {t : List Char}, ' ' ∉ t →
    ∀ {y r : List Char}, t ++ ' ' :: y = w ++ ' ' :: r → w = t := by
  intro w
  induction w with
  | nil =>
    intro _ t ht y r h
    cases t with
    | nil => rfl
    | cons x ts =>
      simp only [List.cons_append, List.nil_append, List.cons.injEq] at h
      simp only [List.mem_cons, not_or] at ht
      exact absurd h.1.symm ht.1
  | cons a ws ih =>
    intro hw t ht y r h
    simp only [List.mem_cons, not_or] at hw
    cases t with
    | nil =>
      simp only [List.nil_append, List.cons_append, List.cons.injEq] at h
      exact absurd h.1 hw.1
    | cons x ts =>
      simp only [List.cons_append, List.cons.injEq] at h
      simp only [List.mem_cons, not_or] at ht
      rw [ih hw.2 ht.2 h.2, h.1]

theorem pkgLit_not_prefix_cons : ∀ {c : Char}, c ≠ ' ' → ∀ (cs : List Char),
    pkgLit.isPrefixOf (c :: cs) = false := by
  intro c hc cs
  rw [pkgLit_eq]
  simp only [List.isPrefixOf, Bool.and_eq_false_iff]
  left
  exact beq_eq_false_iff_ne.mpr (Ne.symm hc)

theorem completePkg_det : ∀ {u : List Char}, ' ' ∉ u → '\n' ∉ u →
    ∀ {n : List Char}, '-' ∉ n → '\n' ∉ n → ∀ (d : List Char),
    completePkg (u ++ (pkgLit ++ (n ++ '-' :: d))) = some n := by
  intro u
  induction u with
  | nil =>
    intro _ _ n hn1 hn2 d
    rw [List.nil_append, pkgLit_append, completePkg]
    rw [if_pos ((isPrefixOf_eq_true_iff _ _).mpr ⟨n ++ '-' :: d, (pkgLit_append _).symm⟩)]
    rw [← pkgLit_append, List.drop_left, findDash_det hn1 hn2 d]
  | cons c cs ih =>
    intro hu hn n hn1 hn2 d
    simp only [List.mem_cons, not_or] at hu hn
    have hp : ¬ (pkgLit.isPrefixOf (c :: (cs ++ (pkgLit ++ (n ++ '-' :: d)))) = true) := by
      rw [pkgLit_not_prefix_cons (Ne.symm hu.1) _]
      simp
    rw [List.cons_append, completePkg, if_neg hp, if_neg (Ne.symm hn.1)]
    exact ih hu.2 hn.2 hn1 hn2 d

theorem tailword_not_prefix : ∀ {w : List Char}, ' ' ∉ w → ∀ {t : List Char}, ' ' ∉ t →
    w ≠ t → ∀ (y : List Char), (w ++ [' ']).isPrefixOf (t ++ ' ' :: y) = false := by
  intro w hw t ht hne y
  by_contra hpre
  rw [Bool.not_eq_false] at hpre
  obtain ⟨r, hr⟩ := (isPrefixOf_eq_true_iff _ _).mp hpre
  have hr' : t ++ ' ' :: y = w ++ ' ' :: r := by
    rw [hr, List.append_assoc]
    rfl
  exact hne (wordSep_eq hw ht hr')

theorem completePkg_det_title : ∀ {typ : List Char}, ' ' ∉ typ → '\n' ∉ typ →
    typ ≠ pkgWord → ∀ {n : List Char}, '-' ∉ n → '\n' ∉ n → ∀ (d : List Char),
    completePkg (' ' :: (typ ++ (pkgLit ++ (n ++ '-' :: d)))) = some n := by
  intro typ hts htn htp n hn1 hn2 d
  have hp : pkgLit.isPrefixOf (' ' :: (typ ++ (pkgLit ++ (n ++ '-' :: d)))) = false := by
    rw [pkgLit_append (n ++ '-' :: d), pkgLit_eq]
    simp only [List.isPrefixOf, beq_self_eq_true, Bool.true_and]
    exact tailword_not_prefix (by decide) hts (fun h => htp h.symm)
      ((pkgWord ++ [' ']) ++ (n ++ '-' :: d))
  rw [completePkg, if_neg (by rw [hp]; simp)]
  rw [if_neg (by decide : ¬ (' ' = '\n'))]
  exact completePkg_det hts htn hn1 hn2 d

theorem matchTitle_sound : ∀ {t g1 g2 : List Char}, matchTitle t = some (g1, g2) →
    ∃ rest, t = g1 ++ ':' :: rest ∧ '\n' ∉ g1 ∧ completePkg rest = some g2 := by
  intro t
  induction t with
  | nil => intro g1 g2 h; simp [matchTitle] at h
  | cons c cs ih =>
    intro g1 g2 h
    rw [matchTitle] at h
    split at h
    next hc =>
      split at h
      next g2' hcp =>
        simp only [Option.some.injEq, Prod.mk.injEq] at h
        obtain ⟨h1, h2⟩ := h
        subst hc
        refine ⟨cs, ?_, by rw [← h1]; simp, by rw [← h2]; exact hcp⟩
        rw [← h1, List.nil_append]
      next hcp =>
        rcases hmt : matchTitle cs with _ | ⟨⟨g1', g2'⟩⟩
        · rw [hmt] at h; simp at h
        · rw [hmt] at h
          simp only [Option.map_some', Option.some.injEq, Prod.mk.injEq] at h
          obtain ⟨h1, h2⟩ := h
          obtain ⟨rest, hcs, hn1, hcp2⟩ := ih hmt
          subst h2
          refine ⟨rest, ?_, ?_, hcp2⟩
          · rw [← h1, hcs, List.cons_append]
          · rw [← h1]
            simp only [List.mem_cons, not_or]
            exact ⟨by rw [hc]; decide, hn1⟩
    next hc =>
      split at h
      next hn => simp at h
      next hn =>
        rcases hmt : matchTitle cs with _ | ⟨⟨g1', g2'⟩⟩
        · rw [hmt] at h; simp at h
        · rw [hmt] at h
          simp only [Option.map_some', Option.some.injEq, Prod.mk.injEq] at h
          obtain ⟨h1, h2⟩ := h
          obtain ⟨rest, hcs, hn1, hcp2⟩ := ih hmt
          subst h2
          refine ⟨rest, by rw [← h1, hcs, List.cons_append], ?_, hcp2⟩
          rw [← h1]
          simp only [List.mem_cons, not_or]
          exact ⟨Ne.symm hn, hn1⟩

theorem matchTitle_isSome : ∀ {a : List Char}, '\n' ∉ a → ∀ {b g : List Char}, '\n' ∉ b →
    '\n' ∉ g → ∀ (d : List Char),
    (matchTitle (a ++ ':' :: (b ++ (pkgLit ++ (g ++ '-' :: d))))).isSome = true := by
  intro a
  induction a with
  | nil =>
    intro _ b g hb hg d
    rw [List.nil_append, matchTitle, if_pos rfl]
    rcases hcp : completePkg (b ++ (pkgLit ++ (g ++ '-' :: d))) with _ | g2
    · have := completePkg_isSome hb hg d
      rw [hcp] at this
      simp at this
    · rfl
  | cons c cs ih =>
    intro ha b g hb hg d
    simp only [List.mem_cons, not_or] at ha
    rw [List.cons_append, matchTitle]
    by_cases hc : c = ':'
    · rw [if_pos hc]
      rcases hcp : completePkg (cs ++ ':' :: (b ++ (pkgLit ++ (g ++ '-' :: d)))) with _ | g2
      · simpa using ih ha.2 hb hg d
      · rfl
    · rw [if_neg hc, if_neg (Ne.symm ha.1)]
      simpa using ih ha.2 hb hg d

theorem matchTitle_det : ∀ {a : List Char}, ':' ∉ a → '\n' ∉ a →
    ∀ {rest g : List Char}, completePkg rest = some g →
    matchTitle (a ++ ':' :: rest) = some (a, g) := by
  intro a
  induction a with
  | nil =>
    intro _ _ rest g hcp
    rw [List.nil_append, matchTitle, if_pos rfl, hcp]
  | cons c cs ih =>
    intro hc hn rest g hcp
    simp only [List.mem_cons, not_or] at hc hn
    rw [List.cons_append, matchTitle, if_neg (Ne.symm hc.1), if_neg (Ne.symm hn.1),
      ih hc.2 hn.2 hcp, Option.map_some']

theorem getIdentifierFromTitle_isSome_iff (t : List Char) :
    (getIdentifierFromTitle t).isSome = true ↔
    ∃ a b c d, t = a ++ ':' :: (b ++ (pkgLit ++ (c ++ '-' :: d))) ∧
      '\n' ∉ a ∧ '\n' ∉ b ∧ '\n' ∉ c := by
  rw [getIdentifierFromTitle]
  rw [show ∀ (o : Option (List Char × List Char)) (f : List Char × List Char → List Char),
      (o.map f).isSome = o.isSome by intro o f; cases o <;> rfl]
  constructor
  · intro h
    rcases hmt : matchTitle t with _ | ⟨⟨g1, g2⟩⟩
    · rw [hmt] at h; simp at h
    · obtain ⟨rest, ht, hn1, hcp⟩ := matchTitle_sound hmt
      obtain ⟨b, d, hrest, hb, hg⟩ := completePkg_sound hcp
      exact ⟨g1, b, g2, d, by rw [ht, hrest], hn1, hb, hg⟩
  · rintro ⟨a, b, c, d, ht, ha, hb, hc⟩
    rw [ht]
    exact matchTitle_isSome ha hb hc d

theorem issueTitle_decomp (typ targ : List Char) (v : Vulnerability) :
    issueTitle (buildReport typ targ v) v =
    v.VulnerabilityID ++ ':' ::
      (' ' :: (typ ++ (pkgLit ++ (v.PkgName ++ '-' :: v.InstalledVersion)))) := by
  simp [issueTitle, buildReport, List.append_assoc]

theorem title_roundtrip (typ targ : List Char) (v : Vulnerability)
    (h1 : ':' ∉ v.VulnerabilityID) (h2 : '\n' ∉ v.VulnerabilityID)
    (h3 : ' ' ∉ typ) (h4 : '\n' ∉ typ) (h5 : typ ≠ pkgWord)
    (h6 : '-' ∉ v.PkgName) (h7 : '\n' ∉ v.PkgName) :
    getIdentifierFromTitle (issueTitle (buildReport typ targ v) v) =
      some (vulnIdentifier v) := by
  rw [issueTitle_decomp, getIdentifierFromTitle,
    matchTitle_det h1 h2 (completePkg_det_title h3 h4 h5 h6 h7 _), Option.map_some']
  rfl

theorem parseEntry_ok_mem {exSet : List (List Char)} {idx : Nat} {e : JResultEntry}
    {rs : List Report} (h : parseEntry exSet idx e = .ok rs) :
    ∀ r ∈ rs, ∃ typ targ v, r = buildReport typ targ v := by
  cases e with
  | notRecord => simp [parseEntry] at h
  | record typ targ vulns =>
    cases vulns with
    | none =>
      simp only [parseEntry, Except.ok.injEq] at h
      rw [← h]
      intro r hr
      simp at hr
    | some jv =>
      cases jv with
      | notList => simp [parseEntry] at h
      | list vs =>
        simp only [parseEntry, Except.ok.injEq] at h
        rw [← h]
        intro r hr
        obtain ⟨v, _, hv⟩ := List.mem_filterMap.mp hr
        split at hv
        · simp at hv
        · simp only [Option.some.injEq] at hv
          exact ⟨typ, targ, v, hv.symm⟩

theorem parseEntries_ok_mem : ∀ {es : List JResultEntry} {exSet : List (List Char)}
    {idx : Nat} {rs : List Report}, parseEntries exSet idx es = .ok rs →
    ∀ r ∈ rs, ∃ typ targ v, r = buildReport typ targ v := by
  intro es
  induction es with
  | nil =>
    intro exSet idx rs h
    simp only [parseEntries, Except.ok.injEq] at h
    rw [← h]
    intro r hr
    simp at hr
  | cons e es ih =>
    intro exSet idx rs h
    rw [parseEntries] at h
    rcases hpe : parseEntry exSet idx e with err | rs1
    · rw [hpe] at h; simp at h
    · rw [hpe] at h
      rcases hrec : parseEntries exSet (idx + 1) es with err | rest
      · rw [hrec] at h; simp at h
      · rw [hrec] at h
        simp only [Except.ok.injEq] at h
        rw [← h]
        intro r hr
        rcases List.mem_append.mp hr with hr1 | hr2
        · exact parseEntry_ok_mem hpe r hr1
        · exact ih hrec r hr2

theorem parseEntries_error_of_bad : ∀ {es : List JResultEntry} (exSet : List (List Char))
    (idx : Nat), (∃ e ∈ es, badEntry e) →
    ∃ err, parseEntries exSet idx es = .error err := by
  intro es
  induction es with
  | nil => intro exSet idx h; simp at h
  | cons e es ih =>
    intro exSet idx h
    rw [parseEntries]
    cases e with
    | notRecord => exact ⟨.resultNotRecord idx, rfl⟩
    | record typ targ vulns =>
      have hnb : ¬ badEntry (JResultEntry.record typ targ vulns) ∨
          badEntry (JResultEntry.record typ targ vulns) := Or.symm (em _)
      cases vulns with
      | none =>
        have htail : ∃ e ∈ es, badEntry e := by
          rcases h with ⟨e', he', hb⟩
          rcases List.mem_cons.mp he' with rfl | hmem
          · exact absurd hb (by simp [badEntry])
          · exact ⟨e', hmem, hb⟩
        obtain ⟨err, herr⟩ := ih exSet (idx + 1) htail
        refine ⟨err, ?_⟩
        have hpe : parseEntry exSet idx (JResultEntry.record typ targ none) = .ok [] := rfl
        rw [hpe, herr]
      | some jv =>
        cases jv with
        | notList => exact ⟨.vulnsNotList idx, rfl⟩
        | list vs =>
          have htail : ∃ e ∈ es, badEntry e := by
            rcases h with ⟨e', he', hb⟩
            rcases List.mem_cons.mp he' with rfl | hmem
            · exact absurd hb (by simp [badEntry])
            · exact ⟨e', hmem, hb⟩
          obtain ⟨err, herr⟩ := ih exSet (idx + 1) htail
          refine ⟨err, ?_⟩
          have hpe : parseEntry exSet idx (JResultEntry.record typ targ (some (.list vs))) =
              .ok (vs.filterMap (fun v =>
                if vulnIdentifier v ∈ exSet then none else some (buildReport typ targ v))) := rfl
          rw [hpe, herr]

theorem parseEntries_bad_of_error : ∀ {es : List JResultEntry} {exSet : List (List Char)}
    {idx : Nat} {err : MalformedReport}, parseEntries exSet idx es = .error err →
    ∃ e ∈ es, badEntry e := by
  intro es
  induction es with
  | nil => intro exSet idx err h; simp [parseEntries] at h
  | cons e es ih =>
    intro exSet idx err h
    rw [parseEntries] at h
    rcases hpe : parseEntry exSet idx e with err1 | rs1
    · cases e with
      | notRecord => exact ⟨_, List.mem_cons_self _ _, trivial⟩
      | record typ targ vulns =>
        cases vulns with
        | none => simp [parseEntry] at hpe
        | some jv =>
          cases jv with
          | notList => exact ⟨_, List.mem_cons_self _ _, trivial⟩
          | list vs => simp [parseEntry] at hpe
    · rw [hpe] at h
      rcases hrec : parseEntries exSet (idx + 1) es with err2 | rest
      · obtain ⟨e', he', hb⟩ := ih hrec
        exact ⟨e', List.mem_cons_of_mem _ he', hb⟩
      · rw [hrec] at h; simp at h

theorem parseEntries_ok_eq : ∀ {es : List JResultEntry} {exSet : List (List Char)}
    {idx : Nat} {rs : List Report}, parseEntries exSet idx es = .ok rs →
    rs = entriesRecords exSet es := by
  intro es
  induction es with
  | nil =>
    intro exSet idx rs h
    simp only [parseEntries, Except.ok.injEq] at h
    rw [← h]
    rfl
  | cons e es ih =>
    intro exSet idx rs h
    rw [parseEntries] at h
    rcases hpe : parseEntry exSet idx e with err | rs1
    · rw [hpe] at h; simp at h
    · rw [hpe] at h
      rcases hrec : parseEntries exSet (idx + 1) es with err | rest
      · rw [hrec] at h; simp at h
      · rw [hrec] at h
        simp only [Except.ok.injEq] at h
        rw [← h, ih hrec]
        have hfirst : rs1 = entryRecords exSet e := by
          cases e with
          | notRecord => simp [parseEntry] at hpe
          | record typ targ vulns =>
            cases vulns with
            | none =>
              simp only [parseEntry, Except.ok.injEq] at hpe
              rw [← hpe]; rfl
            | some jv =>
              cases jv with
              | notList => simp [parseEntry] at hpe
              | list vs =>
                simp only [parseEntry, Except.ok.injEq] at hpe
                rw [← hpe]; rfl
        rw [hfirst]
        rfl

theorem parseResultsCore_error_iff (d : ReportDict) (ex : List TrivyIssue) :
    (∃ err, parseResultsCore d ex = .error err) ↔ malformedReport d := by
  rcases d with ⟨res⟩
  cases res with
  | notList =>
    simp only [parseResultsCore, malformedReport]
    exact ⟨fun _ => trivial, fun _ => ⟨.resultsNotList, rfl⟩⟩
  | list es =>
    simp only [parseResultsCore, malformedReport]
    constructor
    · rintro ⟨err, herr⟩
      exact parseEntries_bad_of_error herr
    · intro hbad
      exact parseEntries_error_of_bad _ 0 hbad

theorem parseResultsCore_ok_eq {d : ReportDict} {ex : List TrivyIssue} {rs : List Report}
    (h : parseResultsCore d ex = .ok rs) : rs = orderedRecords d ex := by
  rcases d with ⟨res⟩
  cases res with
  | notList => simp [parseResultsCore] at h
  | list es =>
    simp only [parseResultsCore] at h
    rw [orderedRecords]
    exact parseEntries_ok_eq h

theorem mapGet_mem {α : Type} : ∀ {m : List (List Char × α)} {k : List Char} {v : α},
    mapGet m k = some v → (k, v) ∈ m := by
  intro m
  induction m with
  | nil => intro k v h; simp [mapGet] at h
  | cons p m ih =>
    intro k v h
    rw [mapGet] at h
    split at h
    next heq =>
      simp only [Option.some.injEq] at h
      exact List.mem_cons.mpr (Or.inl (by rw [← heq, ← h]))
    next heq =>
      exact List.mem_cons_of_mem _ (ih h)

theorem mapGet_none_iff_keys {α : Type} : ∀ {m : List (List Char × α)} {k : List Char},
    mapGet m k = none ↔ k ∉ m.map Prod.fst := by
  intro m
  induction m with
  | nil => intro k; exact ⟨fun _ => by simp, fun _ => rfl⟩
  | cons p m ih =>
    intro k
    rw [mapGet]
    by_cases heq : p.1 = k
    · rw [if_pos heq]
      constructor
      · intro h
        exact absurd h (by simp)
      · intro h
        refine absurd ?_ h
        rw [List.map_cons, ← heq]
        exact List.mem_cons_self _ _
    · rw [if_neg heq, ih]
      simp only [List.map_cons, List.mem_cons, not_or]
      constructor
      · intro h
        exact ⟨fun hk => heq hk.symm, h⟩
      · intro h
        exact h.2

theorem mapHas_eq_isSome {α : Type} (m : List (List Char × α)) (k : List Char) :
    mapHas m k = (mapGet m k).isSome := by
  rw [mapHas]
  cases mapGet m k <;> rfl

theorem mapSet_mem {α : Type} : ∀ {m : List (List Char × α)} {k : List Char} {v : α}
    {p : List Char × α}, p ∈ mapSet m k v → p = (k, v) ∨ p ∈ m := by
  intro m
  induction m with
  | nil =>
    intro k v p h
    rw [mapSet] at h
    simp at h
    left
    exact h
  | cons q m ih =>
    intro k v p h
    rw [mapSet] at h
    split at h
    next heq =>
      rcases List.mem_cons.mp h with h1 | h2
      · left; exact h1
      · right; exact List.mem_cons_of_mem _ h2
    next heq =>
      rcases List.mem_cons.mp h with h1 | h2
      · right
        rw [h1]
        exact List.mem_cons_self _ _
      · rcases ih h2 with h3 | h4
        · left; exact h3
        · right; exact List.mem_cons_of_mem _ h4

theorem mapGet_mapSet_self {α : Type} : ∀ (m : List (List Char × α)) (k : List Char) (v : α),
    mapGet (mapSet m k v) k = some v := by
  intro m
  induction m with
  | nil => intro k v; simp [mapSet, mapGet]
  | cons q m ih =>
    intro k v
    rw [mapSet]
    split
    next heq => simp [mapGet]
    next heq =>
      rw [mapGet, if_neg heq]
      exact ih k v

theorem mapGet_mapSet_other {α : Type} : ∀ (m : List (List Char × α)) {k k' : List Char}
    (v : α), k' ≠ k → mapGet (mapSet m k v) k' = mapGet m k' := by
  intro m
  induction m with
  | nil =>
    intro k k' v hne
    simp only [mapSet, mapGet]
    rw [if_neg (fun h => hne h.symm)]
  | cons q m ih =>
    intro k k' v hne
    rw [mapSet]
    split
    next heq =>
      rw [mapGet, mapGet, if_neg (fun h => hne h.symm), if_neg]
      rw [heq]
      exact fun h => hne h.symm
    next heq =>
      rw [mapGet, mapGet]
      split
      next => rfl
      next => exact ih v hne

theorem mapSet_of_get_none {α : Type} : ∀ {m : List (List Char × α)} {k : List Char},
    mapGet m k = none → ∀ (v : α), mapSet m k v = m ++ [(k, v)] := by
  intro m
  induction m with
  | nil => intro k _ v; rfl
  | cons q m ih =>
    intro k h v
    rw [mapGet] at h
    split at h
    · simp at h
    next heq =>
      rw [mapSet, if_neg heq, ih h v]
      rfl

theorem mapGet_append {α : Type} : ∀ (m1 m2 : List (List Char × α)) (k : List Char),
    mapGet (m1 ++ m2) k =
      (match mapGet m1 k with
       | some v => some v
       | none => mapGet m2 k) := by
  intro m1
  induction m1 with
  | nil => intro m2 k; rfl
  | cons q m1 ih =>
    intro m2 k
    rw [List.cons_append, mapGet, mapGet]
    split
    next => rfl
    next => exact ih m2 k

theorem mapGet_map_value {α β : Type} (f : α → β) :
    ∀ (m : List (List Char × α)) (k : List Char),
    mapGet (m.map (fun p => (p.1, f p.2))) k = (mapGet m k).map f := by
  intro m
  induction m with
  | nil => intro k; rfl
  | cons q m ih =>
    intro k
    rw [List.map_cons, mapGet, mapGet]
    split
    next => rfl
    next => exact ih k

theorem mapSet_map_value {α β : Type} (f : α → β) :
    ∀ (m : List (List Char × α)) (k : List Char) (v : α),
    (mapSet m k v).map (fun p => (p.1, f p.2)) =
      mapSet (m.map (fun p => (p.1, f p.2))) k (f v) := by
  intro m
  induction m with
  | nil => intro k v; rfl
  | cons q m ih =>
    intro k v
    rw [mapSet]
    split
    next heq =>
      rw [List.map_cons, List.map_cons, mapSet, if_pos heq]
    next heq =>
      rw [List.map_cons, List.map_cons, mapSet, if_neg heq, ih]

theorem mapSet_keys {α : Type} : ∀ (m : List (List Char × α)) (k : List Char) (v : α),
    (mapSet m k v).map Prod.fst =
      (if (mapGet m k).isSome then m.map Prod.fst else m.map Prod.fst ++ [k]) := by
  intro m
  induction m with
  | nil => intro k v; rfl
  | cons q m ih =>
    intro k v
    by_cases heq : q.1 = k
    · rw [mapSet, if_pos heq, mapGet, if_pos heq]
      simp [heq]
    · rw [mapSet, if_neg heq, mapGet, if_neg heq, List.map_cons, List.map_cons, ih]
      by_cases his : (mapGet m k).isSome = true
      · rw [if_pos his, if_pos his]
      · rw [if_neg his, if_neg his, List.cons_append]

theorem mapSet_keys_nodup {α : Type} {m : List (List Char × α)} {k : List Char} {v : α}
    (h : (m.map Prod.fst).Nodup) : ((mapSet m k v).map Prod.fst).Nodup := by
  rw [mapSet_keys]
  split
  · exact h
  next his =>
    have hk : k ∉ m.map Prod.fst := by
      rw [← mapGet_none_iff_keys]
      cases hg : mapGet m k
      · rfl
      · rw [hg] at his; simp at his
    rw [List.nodup_append]
    refine ⟨h, List.nodup_singleton _, ?_⟩
    intro a ha hak
    rw [List.mem_singleton] at hak
    rw [hak] at ha
    exact hk ha

theorem mapGet_isSome_of_mem {α : Type} : ∀ {m : List (List Char × α)} {k : List Char}
    {v : α}, (k, v) ∈ m → (mapGet m k).isSome = true := by
  intro m
  induction m with
  | nil => intro k v h; simp at h
  | cons q m ih =>
    intro k v h
    rw [mapGet]
    split
    next => rfl
    next heq =>
      rcases List.mem_cons.mp h with h1 | h2
      · exact absurd (congrArg Prod.fst h1.symm) heq
      · exact ih h2

theorem mapGet_of_mem_nodup {α : Type} : ∀ {m : List (List Char × α)},
    (m.map Prod.fst).Nodup → ∀ {k : List Char} {v : α}, (k, v) ∈ m →
    mapGet m k = some v := by
  intro m
  induction m with
  | nil => intro _ k v h; simp at h
  | cons q m ih =>
    intro hnd k v h
    rw [List.map_cons, List.nodup_cons] at hnd
    rw [mapGet]
    rcases List.mem_cons.mp h with h1 | h2
    · rw [← h1]
      simp
    · rw [if_neg ?_]
      · exact ih hnd.2 h2
      · intro heq
        exact hnd.1 (heq ▸ List.mem_map.mpr ⟨(k, v), h2, rfl⟩)

theorem mem_key_unique {α : Type} {m : List (List Char × α)}
    (hnd : (m.map Prod.fst).Nodup) {k : List Char} {a b : α}
    (ha : (k, a) ∈ m) (hb : (k, b) ∈ m) : a = b := by
  have h1 := mapGet_of_mem_nodup hnd ha
  have h2 := mapGet_of_mem_nodup hnd hb
  rw [h1] at h2
  exact (Option.some.injEq _ _ ▸ h2)

theorem buildStep_mem {β : Type} {tf : β → List Char} {m : List (List Char × β)} {i : β}
    {p : List Char × β} (h : p ∈ buildStep tf m i) :
    p ∈ m ∨ (getIdentifierFromTitle (tf p.2) = some p.1 ∧ p.2 = i) := by
  rw [buildStep] at h
  split at h
  next k hk =>
    rcases mapSet_mem h with h1 | h2
    · right
      rw [h1]
      exact ⟨hk, rfl⟩
    · left; exact h2
  next => left; exact h

theorem foldl_buildStep_mem {β : Type} {tf : β → List Char} : ∀ {l : List β}
    {m : List (List Char × β)} {p : List Char × β}, p ∈ l.foldl (buildStep tf) m →
    p ∈ m ∨ (getIdentifierFromTitle (tf p.2) = some p.1 ∧ p.2 ∈ l) := by
  intro l
  induction l with
  | nil =>
    intro m p h
    rw [List.foldl_nil] at h
    left; exact h
  | cons i l ih =>
    intro m p h
    rw [List.foldl_cons] at h
    rcases ih h with h1 | h2
    · rcases buildStep_mem h1 with h3 | h4
      · left; exact h3
      · right
        refine ⟨h4.1, ?_⟩
        rw [h4.2]
        exact List.mem_cons_self _ _
    · right
      exact ⟨h2.1, List.mem_cons_of_mem _ h2.2⟩

theorem buildMap_mem {β : Type} {tf : β → List Char} {l : List β} {p : List Char × β}
    (h : p ∈ buildMap tf l) :
    getIdentifierFromTitle (tf p.2) = some p.1 ∧ p.2 ∈ l := by
  rcases foldl_buildStep_mem h with h1 | h2
  · simp at h1
  · exact h2

theorem buildStep_keys_nodup {β : Type} {tf : β → List Char} {m : List (List Char × β)}
    {i : β} (h : (m.map Prod.fst).Nodup) :
    ((buildStep tf m i).map Prod.fst).Nodup := by
  rw [buildStep]
  split
  · exact mapSet_keys_nodup h
  · exact h

theorem foldl_buildStep_keys_nodup {β : Type} {tf : β → List Char} : ∀ {l : List β}
    {m : List (List Char × β)}, (m.map Prod.fst).Nodup →
    ((l.foldl (buildStep tf) m).map Prod.fst).Nodup := by
  intro l
  induction l with
  | nil => intro m h; rw [List.foldl_nil]; exact h
  | cons i l ih =>
    intro m h
    rw [List.foldl_cons]
    exact ih (buildStep_keys_nodup h)

theorem buildMap_keys_nodup {β : Type} {tf : β → List Char} (l : List β) :
    ((buildMap tf l).map Prod.fst).Nodup :=
  foldl_buildStep_keys_nodup List.nodup_nil

theorem mapGet_buildStep_isSome {β : Type} {tf : β → List Char} {m : List (List Char × β)}
    {i : β} {k : List Char} (h : (mapGet m k).isSome = true) :
    (mapGet (buildStep tf m i) k).isSome = true := by
  rw [buildStep]
  split
  next k' hk' =>
    by_cases hkk : k = k'
    · rw [hkk, mapGet_mapSet_self]
      rfl
    · rw [mapGet_mapSet_other _ _ hkk]
      exact h
  next => exact h

theorem mapGet_foldl_buildStep_isSome {β : Type} {tf : β → List Char} : ∀ {l : List β}
    {m : List (List Char × β)} {k : List Char}, (mapGet m k).isSome = true →
    (mapGet (l.foldl (buildStep tf) m) k).isSome = true := by
  intro l
  induction l with
  | nil => intro m k h; rw [List.foldl_nil]; exact h
  | cons i l ih =>
    intro m k h
    rw [List.foldl_cons]
    exact ih (mapGet_buildStep_isSome h)

theorem buildMap_isSome_of_mem {β : Type} {tf : β → List Char} : ∀ {l : List β}
    {i : β} {k : List Char}, i ∈ l → getIdentifierFromTitle (tf i) = some k →
    (mapGet (buildMap tf l) k).isSome = true := by
  have haux : ∀ (l : List β) (m : List (List Char × β)) (i : β) (k : List Char),
      i ∈ l → getIdentifierFromTitle (tf i) = some k →
      (mapGet (l.foldl (buildStep tf) m) k).isSome = true := by
    intro l
    induction l with
    | nil => intro m i k h; simp at h
    | cons j l ih =>
      intro m i k hmem hk
      rw [List.foldl_cons]
      rcases List.mem_cons.mp hmem with h1 | h2
      · refine mapGet_foldl_buildStep_isSome ?_
        rw [buildStep, ← h1, hk, mapGet_mapSet_self]
        rfl
      · exact ih _ i k h2 hk
  intro l i k h1 h2
  exact haux l [] i k h1 h2

theorem buildMap_skip {β : Type} {tf : β → List Char} {i : β}
    (h : getIdentifierFromTitle (tf i) = none) (l1 l2 : List β) :
    buildMap tf (l1 ++ i :: l2) = buildMap tf (l1 ++ l2) := by
  rw [buildMap, buildMap, List.foldl_append, List.foldl_append, List.foldl_cons]
  congr 1
  rw [buildStep, h]

theorem number_inj : ∀ {issues : List TrivyIssue},
    (issues.map TrivyIssue.number).Nodup → ∀ {a b : TrivyIssue}, a ∈ issues →
    b ∈ issues → a.number = b.number → a = b := by
  intro issues
  induction issues with
  | nil => intro _ a b ha; simp at ha
  | cons i l ih =>
    intro hnd a b ha hb hn
    rw [List.map_cons, List.nodup_cons] at hnd
    rcases List.mem_cons.mp ha with ha1 | ha2
    · rcases List.mem_cons.mp hb with hb1 | hb2
      · rw [ha1, hb1]
      · exfalso
        refine hnd.1 (List.mem_map.mpr ⟨b, hb2, ?_⟩)
        rw [← hn, ha1]
    · rcases List.mem_cons.mp hb with hb1 | hb2
      · exfalso
        refine hnd.1 (List.mem_map.mpr ⟨a, ha2, ?_⟩)
        rw [hn, hb1]
      · exact ih hnd.2 ha2 hb2 hn

theorem buildMap_values_ne {β : Type} {tf : β → List Char} {l : List β}
    {k1 k2 : List Char} {v1 v2 : β} (h1 : (k1, v1) ∈ buildMap tf l)
    (h2 : (k2, v2) ∈ buildMap tf l) (hne : k1 ≠ k2) : v1 ≠ v2 := by
  intro heq
  have d1 := (buildMap_mem h1).1
  have d2 := (buildMap_mem h2).1
  rw [heq, d2] at d1
  simp only [Option.some.injEq] at d1
  exact hne d1.symm

theorem toClose_mem {newV : List (List Char × Issue)} {exV : List (List Char × TrivyIssue)}
    {p : List Char × TrivyIssue} :
    p ∈ (computePlan newV exV).toClose ↔
      p ∈ exV ∧ p.2.state = openStr ∧ mapHas newV p.1 = false := by
  simp only [computePlan, List.mem_filter, decide_eq_true_eq]

theorem toCreate_mem {newV : List (List Char × Issue)} {exV : List (List Char × TrivyIssue)}
    {p : List Char × Issue} :
    p ∈ (computePlan newV exV).toCreate ↔ p ∈ newV ∧ mapGet exV p.1 = none := by
  simp only [computePlan, List.mem_filterMap]
  constructor
  · rintro ⟨a, ha, hm⟩
    rcases hg : mapGet exV a.1 with _ | ex
    · rw [hg] at hm
      simp only [Option.some.injEq] at hm
      rw [← hm]
      exact ⟨ha, hg⟩
    · rw [hg] at hm
      simp at hm
  · rintro ⟨hp, hg⟩
    refine ⟨p, hp, ?_⟩
    rw [hg]

theorem toReopen_mem {newV : List (List Char × Issue)} {exV : List (List Char × TrivyIssue)}
    {p : List Char × TrivyIssue} :
    p ∈ (computePlan newV exV).toReopen ↔
      ∃ a ∈ newV, a.1 = p.1 ∧ mapGet exV p.1 = some p.2 ∧ p.2.state = closedStr := by
  simp only [computePlan, List.mem_filterMap]
  constructor
  · rintro ⟨a, ha, hm⟩
    rcases hg : mapGet exV a.1 with _ | ex
    · rw [hg] at hm
      simp at hm
    · rw [hg] at hm
      have hm' : (if ex.state = closedStr then some (a.1, ex) else none) = some p := hm
      by_cases hs : ex.state = closedStr
      · rw [if_pos hs] at hm'
        simp only [Option.some.injEq] at hm'
        refine ⟨a, ha, ?_, ?_, ?_⟩
        · rw [← hm']
        · rw [← hm']
          exact hg
        · rw [← hm']
          exact hs
      · rw [if_neg hs] at hm'
        simp at hm'
  · rintro ⟨a, ha, h1, h2, h3⟩
    refine ⟨a, ha, ?_⟩
    rw [h1, h2]
    show (if p.2.state = closedStr then some (p.1, p.2) else none) = some p
    rw [if_pos h3]

/-- C6: for every input pair, the three transition sets of the computed plan
    are pairwise disjoint sets of identifiers: no identifier appears in more
    than one of toCreate, toReopen, toClose. -/
theorem claim_C6_partition (rs : List Report) (issues : List TrivyIssue)
    (plan : TransitionPlan) (h : reconcile rs issues = some plan) :
    (∀ k, k ∈ plan.toCreate.map Prod.fst → k ∉ plan.toReopen.map Prod.fst) ∧
    (∀ k, k ∈ plan.toCreate.map Prod.fst → k ∉ plan.toClose.map Prod.fst) ∧
    (∀ k, k ∈ plan.toReopen.map Prod.fst → k ∉ plan.toClose.map Prod.fst) := by
  rw [reconcile] at h
  rcases hg : generateIssues rs with _ | gis
  · rw [hg] at h; simp at h
  · rw [hg] at h
    simp only [Option.map_some', Option.some.injEq] at h
    rw [← h]
    refine ⟨?_, ?_, ?_⟩
    · intro k hk1 hk2
      obtain ⟨p, hp, hpk⟩ := List.mem_map.mp hk1
      obtain ⟨q, hq, hqk⟩ := List.mem_map.mp hk2
      obtain ⟨hpv, hpn⟩ := toCreate_mem.mp hp
      obtain ⟨a, ha, ha1, hget, hst⟩ := toReopen_mem.mp hq
      rw [hqk, ← hpk, hpn] at hget
      simp at hget
    · intro k hk1 hk2
      obtain ⟨p, hp, hpk⟩ := List.mem_map.mp hk1
      obtain ⟨q, hq, hqk⟩ := List.mem_map.mp hk2
      obtain ⟨hpv, hpn⟩ := toCreate_mem.mp hp
      obtain ⟨hqv, hqs, hqh⟩ := toClose_mem.mp hq
      have hhas : mapHas (buildNewVulns gis) q.1 = true := by
        rw [mapHas_eq_isSome, hqk, ← hpk]
        exact mapGet_isSome_of_mem (show (p.1, p.2) ∈ buildNewVulns gis from hpv)
      rw [hhas] at hqh
      simp at hqh
    · intro k hk1 hk2
      obtain ⟨p, hp, hpk⟩ := List.mem_map.mp hk1
      obtain ⟨q, hq, hqk⟩ := List.mem_map.mp hk2
      obtain ⟨a, ha, ha1, hget, hst⟩ := toReopen_mem.mp hp
      obtain ⟨hqv, hqs, hqh⟩ := toClose_mem.mp hq
      have hhas : mapHas (buildNewVulns gis) q.1 = true := by
        rw [mapHas_eq_isSome, hqk, ← hpk, ← ha1]
        exact mapGet_isSome_of_mem (show (a.1, a.2) ∈ buildNewVulns gis from ha)
      rw [hhas] at hqh
      simp at hqh

/-- C7: every identifier in toClose belongs to an existing issue whose state is
    open, and every identifier in toReopen belongs to an existing issue whose
    state is closed; no closed issue is closed again, no open issue reopened. -/
theorem claim_C7_state_guards (rs : List Report) (issues : List TrivyIssue)
    (plan : TransitionPlan) (h : reconcile rs issues = some plan) :
    (∀ p ∈ plan.toClose, p.2 ∈ issues ∧ p.2.state = openStr) ∧
    (∀ p ∈ plan.toReopen, p.2 ∈ issues ∧ p.2.state = closedStr) := by
  rw [reconcile] at h
  rcases hg : generateIssues rs with _ | gis
  · rw [hg] at h; simp at h
  · rw [hg] at h
    simp only [Option.map_some', Option.some.injEq] at h
    rw [← h]
    constructor
    · intro p hp
      obtain ⟨hpv, hps, _⟩ := toClose_mem.mp hp
      exact ⟨(buildMap_mem hpv).2, hps⟩
    · intro p hp
      obtain ⟨a, ha, ha1, hget, hst⟩ := toReopen_mem.mp hp
      have hmem : (p.1, p.2) ∈ buildExistingIdentifiers issues := mapGet_mem hget
      exact ⟨(buildMap_mem hmem).2, hst⟩

/-- C8: an existing issue whose title the deriver cannot identify is inert:
    dropping it from the existing-issue list leaves the computed plan
    unchanged (so it never suppresses a creation), and it never occurs as the
    issue of a close or reopen transition, whatever its state. -/
theorem claim_C8_unidentifiable_safety (rs : List Report) (l1 l2 : List TrivyIssue)
    (i : TrivyIssue) (hi : getIdentifierFromTitle i.title = none) :
    reconcile rs (l1 ++ i :: l2) = reconcile rs (l1 ++ l2) ∧
    (∀ plan, reconcile rs (l1 ++ i :: l2) = some plan →
      (∀ p ∈ plan.toClose, p.2 ≠ i) ∧ (∀ p ∈ plan.toReopen, p.2 ≠ i)) := by
  constructor
  · rw [reconcile, reconcile,
      show buildExistingIdentifiers (l1 ++ i :: l2) = buildExistingIdentifiers (l1 ++ l2)
        from buildMap_skip hi l1 l2]
  · intro plan h
    rw [reconcile] at h
    rcases hg : generateIssues rs with _ | gis
    · rw [hg] at h; simp at h
    · rw [hg] at h
      simp only [Option.map_some', Option.some.injEq] at h
      rw [← h]
      constructor
      · intro p hp heq
        obtain ⟨hpv, _, _⟩ := toClose_mem.mp hp
        have := (buildMap_mem hpv).1
        rw [heq, hi] at this
        simp at this
      · intro p hp heq
        obtain ⟨a, ha, ha1, hget, hst⟩ := toReopen_mem.mp hp
        have hmem : (p.1, p.2) ∈ buildExistingIdentifiers (l1 ++ i :: l2) := mapGet_mem hget
        have := (buildMap_mem hmem).1
        rw [heq, hi] at this
        simp at this

theorem filterMap_id_sublist {α : Type} {f : α → Option α}
    (hf : ∀ a, f a = none ∨ f a = some a) : ∀ (l : List α), (l.filterMap f).Sublist l := by
  intro l
  induction l with
  | nil => simp
  | cons a l ih =>
    rw [List.filterMap_cons]
    rcases hf a with h | h
    · rw [h]
      exact ih.cons a
    · rw [h]
      exact ih.cons₂ a

theorem toCreate_sublist (newV : List (List Char × Issue))
    (exV : List (List Char × TrivyIssue)) :
    ((computePlan newV exV).toCreate).Sublist newV := by
  rw [computePlan]
  refine filterMap_id_sublist ?_ newV
  intro a
  rcases hg : mapGet exV a.1 with _ | ex
  · right; rfl
  · left; rfl

theorem foldl_buildStep_map {β : Type} {tf : β → List Char} {f : β → β}
    (hf : ∀ i, tf (f i) = tf i) : ∀ (l : List β) (m : List (List Char × β)),
    l.foldl (fun m i => buildStep tf m (f i)) (m.map (fun p => (p.1, f p.2))) =
      (l.foldl (buildStep tf) m).map (fun p => (p.1, f p.2)) := by
  intro l
  induction l with
  | nil => intro m; rw [List.foldl_nil, List.foldl_nil]
  | cons i l ih =>
    intro m
    rw [List.foldl_cons, List.foldl_cons]
    have hstep : buildStep tf (m.map (fun p => (p.1, f p.2))) (f i) =
        (buildStep tf m i).map (fun p => (p.1, f p.2)) := by
      rw [buildStep, buildStep, hf i]
      rcases hd : getIdentifierFromTitle (tf i) with _ | k
      · rfl
      · exact (mapSet_map_value f m k i).symm
    rw [hstep, ih]

theorem buildMap_map {β : Type} {tf : β → List Char} {f : β → β}
    (hf : ∀ i, tf (f i) = tf i) (l : List β) :
    buildMap tf (l.map f) = (buildMap tf l).map (fun p => (p.1, f p.2)) := by
  rw [buildMap, buildMap, List.foldl_map]
  have h := foldl_buildStep_map hf l []
  rw [List.map_nil] at h
  exact h

theorem foldl_buildStep_fresh : ∀ (cl : List (List Char × Issue))
    (m : List (List Char × TrivyIssue)),
    (∀ p ∈ cl, getIdentifierFromTitle p.2.title = some p.1) →
    (∀ p ∈ cl, mapGet m p.1 = none) →
    (cl.map Prod.fst).Nodup →
    (cl.map (fun p => createdIssue p.2)).foldl (buildStep TrivyIssue.title) m =
      m ++ cl.map (fun p => (p.1, createdIssue p.2)) := by
  intro cl
  induction cl with
  | nil => intro m _ _ _; rw [List.map_nil, List.foldl_nil, List.map_nil, List.append_nil]
  | cons q cl ih =>
    intro m hder hfresh hnd
    rw [List.map_cons, List.foldl_cons]
    rw [List.map_cons, List.nodup_cons] at hnd
    have hq : buildStep TrivyIssue.title m (createdIssue q.2) =
        m ++ [(q.1, createdIssue q.2)] := by
      rw [buildStep]
      have h2 : getIdentifierFromTitle (TrivyIssue.title (createdIssue q.2)) = some q.1 :=
        hder q (List.mem_cons_self _ _)
      rw [h2]
      exact mapSet_of_get_none (hfresh q (List.mem_cons_self _ _)) _
    have hder2 : ∀ p ∈ cl, getIdentifierFromTitle p.2.title = some p.1 :=
      fun p hp => hder p (List.mem_cons_of_mem _ hp)
    have hfresh2 : ∀ p ∈ cl, mapGet (m ++ [(q.1, createdIssue q.2)]) p.1 = none := by
      intro p hp
      rw [mapGet_append, hfresh p (List.mem_cons_of_mem _ hp)]
      rw [mapGet, if_neg, mapGet]
      intro heq
      exact hnd.1 (heq ▸ List.mem_map.mpr ⟨p, hp, rfl⟩)
    rw [hq, ih (m ++ [(q.1, createdIssue q.2)]) hder2 hfresh2 hnd.2, List.map_cons,
      List.append_assoc, List.singleton_append]

theorem computePlan_applyPlan_empty (gis : List Issue) (issues : List TrivyIssue)
    (hnum : (issues.map TrivyIssue.number).Nodup) :
    computePlan (buildNewVulns gis)
      (buildExistingIdentifiers
        (applyPlan (computePlan (buildNewVulns gis) (buildExistingIdentifiers issues))
          issues)) = ⟨[], [], []⟩ := by
  classical
  set newV := buildNewVulns gis with hnewV
  set exV := buildExistingIdentifiers issues with hexV
  set plan := computePlan newV exV with hplan
  have hexnd : (exV.map Prod.fst).Nodup := by
    rw [hexV]
    exact buildMap_keys_nodup issues
  have hnvnd : (newV.map Prod.fst).Nodup := by
    rw [hnewV]
    exact buildMap_keys_nodup gis
  have hexmem : ∀ p : List Char × TrivyIssue, p ∈ exV →
      getIdentifierFromTitle p.2.title = some p.1 ∧ p.2 ∈ issues := by
    intro p hp
    rw [hexV] at hp
    exact buildMap_mem hp
  have hnvmem : ∀ p : List Char × Issue, p ∈ newV →
      getIdentifierFromTitle p.2.title = some p.1 := by
    intro p hp
    rw [hnewV] at hp
    exact (buildMap_mem hp).1
  have hvalne : ∀ {k1 k2 : List Char} {v1 v2 : TrivyIssue}, (k1, v1) ∈ exV →
      (k2, v2) ∈ exV → k1 ≠ k2 → v1.number ≠ v2.number := by
    intro k1 k2 v1 v2 h1 h2 hk hn
    have hne : v1 ≠ v2 := by
      intro he
      have d1 := (hexmem _ h1).1
      have d2 := (hexmem _ h2).1
      rw [he, d2] at d1
      simp only [Option.some.injEq] at d1
      exact hk d1.symm
    exact hne (number_inj hnum (hexmem _ h1).2 (hexmem _ h2).2 hn)
  have hclose_no : ∀ {k : List Char} {ex : TrivyIssue}, (k, ex) ∈ exV →
      mapHas newV k = true → ∀ q ∈ plan.toClose, q.2.number ≠ ex.number := by
    intro k ex hmem hhas q hq
    rw [hplan] at hq
    obtain ⟨hqex, hqst, hqhas⟩ := toClose_mem.mp hq
    have hkne : q.1 ≠ k := by
      intro he
      rw [he, hhas] at hqhas
      simp at hqhas
    exact hvalne (show (q.1, q.2) ∈ exV from hqex) hmem hkne
  have hclose_no' : ∀ {k : List Char} {ex : TrivyIssue}, (k, ex) ∈ exV →
      ex.state ≠ openStr → ∀ q ∈ plan.toClose, q.2.number ≠ ex.number := by
    intro k ex hmem hst q hq
    rw [hplan] at hq
    obtain ⟨hqex, hqst, hqhas⟩ := toClose_mem.mp hq
    by_cases hke : q.1 = k
    · have hvv : q.2 = ex := mem_key_unique hexnd (hke ▸ hqex) hmem
      intro _
      exact hst (hvv ▸ hqst)
    · exact hvalne (show (q.1, q.2) ∈ exV from hqex) hmem hke
  have hreopen_no : ∀ {k : List Char} {ex : TrivyIssue}, (k, ex) ∈ exV →
      mapHas newV k = false → ∀ q ∈ plan.toReopen, q.2.number ≠ ex.number := by
    intro k ex hmem hhas q hq
    rw [hplan] at hq
    obtain ⟨a, ha, ha1, hget, hqst⟩ := toReopen_mem.mp hq
    have hqex : (q.1, q.2) ∈ exV := mapGet_mem hget
    have hke : q.1 ≠ k := by
      intro he
      have hsome : (mapGet newV q.1).isSome = true := by
        rw [← ha1]
        exact mapGet_isSome_of_mem (show (a.1, a.2) ∈ newV from ha)
      rw [he] at hsome
      rw [mapHas_eq_isSome, hsome] at hhas
      simp at hhas
    exact hvalne hqex hmem hke
  have hreopen_no' : ∀ {k : List Char} {ex : TrivyIssue}, (k, ex) ∈ exV →
      ex.state ≠ closedStr → ∀ q ∈ plan.toReopen, q.2.number ≠ ex.number := by
    intro k ex hmem hst q hq
    rw [hplan] at hq
    obtain ⟨a, ha, ha1, hget, hqst⟩ := toReopen_mem.mp hq
    have hqex : (q.1, q.2) ∈ exV := mapGet_mem hget
    by_cases hke : q.1 = k
    · have hvv : q.2 = ex := mem_key_unique hexnd (hke ▸ hqex) hmem
      intro _
      exact hst (hvv ▸ hqst)
    · exact hvalne hqex hmem hke
  set fmap : TrivyIssue → TrivyIssue := fun i =>
    if plan.toClose.any (fun p => p.2.number = i.number) then { i with state := closedStr }
    else if plan.toReopen.any (fun p => p.2.number = i.number) then { i with state := openStr }
    else i with hfmap
  have happly : applyPlan plan issues =
      issues.map fmap ++ plan.toCreate.map (fun p => createdIssue p.2) := rfl
  have hftitle : ∀ i, TrivyIssue.title (fmap i) = TrivyIssue.title i := by
    intro i
    show TrivyIssue.title
      (if plan.toClose.any (fun p => p.2.number = i.number) then { i with state := closedStr }
       else if plan.toReopen.any (fun p => p.2.number = i.number) then { i with state := openStr }
       else i) = TrivyIssue.title i
    split
    · rfl
    · split
      · rfl
      · rfl
  have hf_eq_of : ∀ (ex : TrivyIssue),
      (∀ q ∈ plan.toClose, q.2.number ≠ ex.number) →
      (∀ q ∈ plan.toReopen, q.2.number ≠ ex.number) →
      fmap ex = ex := by
    intro ex h1 h2
    have hc : plan.toClose.any (fun p => p.2.number = ex.number) = false := by
      rw [List.any_eq_false]
      intro q hq
      simp only [decide_eq_true_eq]
      exact h1 q hq
    have hr : plan.toReopen.any (fun p => p.2.number = ex.number) = false := by
      rw [List.any_eq_false]
      intro q hq
      simp only [decide_eq_true_eq]
      exact h2 q hq
    show (if plan.toClose.any (fun p => p.2.number = ex.number) then { ex with state := closedStr }
       else if plan.toReopen.any (fun p => p.2.number = ex.number) then { ex with state := openStr }
       else ex) = ex
    rw [if_neg (by rw [hc]; simp), if_neg (by rw [hr]; simp)]
  have hf_close : ∀ (k : List Char) (ex : TrivyIssue), (k, ex) ∈ exV →
      ex.state = openStr → mapHas newV k = false →
      fmap ex = { ex with state := closedStr } := by
    intro k ex hmem hst hhas
    have hin : (k, ex) ∈ plan.toClose := by
      rw [hplan]
      exact toClose_mem.mpr ⟨hmem, hst, hhas⟩
    have hc : plan.toClose.any (fun p => p.2.number = ex.number) = true := by
      rw [List.any_eq_true]
      exact ⟨(k, ex), hin, by simp⟩
    show (if plan.toClose.any (fun p => p.2.number = ex.number) then { ex with state := closedStr }
       else if plan.toReopen.any (fun p => p.2.number = ex.number) then { ex with state := openStr }
       else ex) = { ex with state := closedStr }
    rw [if_pos hc]
  have hf_reopen : ∀ (k : List Char) (ex : TrivyIssue), (k, ex) ∈ exV →
      ex.state = closedStr → mapHas newV k = true →
      fmap ex = { ex with state := openStr } := by
    intro k ex hmem hst hhas
    have hcf : plan.toClose.any (fun p => p.2.number = ex.number) = false := by
      rw [List.any_eq_false]
      intro q hq
      simp only [decide_eq_true_eq]
      exact hclose_no hmem hhas q hq
    have hin : (k, ex) ∈ plan.toReopen := by
      rw [hplan]
      refine toReopen_mem.mpr ?_
      rw [mapHas_eq_isSome] at hhas
      rcases hv : mapGet newV k with _ | v
      · rw [hv] at hhas
        simp at hhas
      · exact ⟨(k, v), mapGet_mem hv, rfl, mapGet_of_mem_nodup hexnd hmem, hst⟩
    have hr : plan.toReopen.any (fun p => p.2.number = ex.number) = true := by
      rw [List.any_eq_true]
      exact ⟨(k, ex), hin, by simp⟩
    show (if plan.toClose.any (fun p => p.2.number = ex.number) then { ex with state := closedStr }
       else if plan.toReopen.any (fun p => p.2.number = ex.number) then { ex with state := openStr }
       else ex) = { ex with state := openStr }
    rw [if_neg (by rw [hcf]; simp), if_pos hr]
  have hcrnd : (plan.toCreate.map Prod.fst).Nodup := by
    rw [hplan]
    exact List.Nodup.sublist (List.Sublist.map Prod.fst (toCreate_sublist newV exV))
      (by rw [hnewV]; exact buildMap_keys_nodup gis)
  have hcrmem : ∀ p ∈ plan.toCreate,
      getIdentifierFromTitle p.2.title = some p.1 ∧ mapGet exV p.1 = none := by
    intro p hp
    rw [hplan] at hp
    obtain ⟨hpv, hpn⟩ := toCreate_mem.mp hp
    exact ⟨hnvmem p hpv, hpn⟩
  have hM : buildExistingIdentifiers (applyPlan plan issues) =
      exV.map (fun p => (p.1, fmap p.2)) ++
        plan.toCreate.map (fun p => (p.1, createdIssue p.2)) := by
    rw [happly, buildExistingIdentifiers, buildMap, List.foldl_append]
    have h1 : (issues.map fmap).foldl (buildStep TrivyIssue.title) [] =
        exV.map (fun p => (p.1, fmap p.2)) := by
      rw [show (issues.map fmap).foldl (buildStep TrivyIssue.title) [] =
        buildMap TrivyIssue.title (issues.map fmap) from rfl]
      rw [buildMap_map hftitle issues, hexV]
      rfl
    rw [h1]
    refine foldl_buildStep_fresh plan.toCreate _ ?_ ?_ hcrnd
    · intro p hp
      exact (hcrmem p hp).1
    · intro p hp
      rw [mapGet_map_value, (hcrmem p hp).2]
      rfl
  have hCnd : ((plan.toCreate.map (fun p => (p.1, createdIssue p.2))).map Prod.fst).Nodup := by
    have hrw : (plan.toCreate.map (fun p => (p.1, createdIssue p.2))).map Prod.fst =
        plan.toCreate.map Prod.fst := by
      rw [List.map_map]
      rfl
    rw [hrw]
    exact hcrnd
  have hMget : ∀ a ∈ newV, ∃ v,
      mapGet (exV.map (fun p => (p.1, fmap p.2)) ++
        plan.toCreate.map (fun p => (p.1, createdIssue p.2))) a.1 = some v ∧
      v.state ≠ closedStr := by
    intro a ha
    rcases hg : mapGet exV a.1 with _ | ex
    · have hin : a ∈ plan.toCreate := by
        rw [hplan]
        exact toCreate_mem.mpr ⟨ha, hg⟩
      have hcmem : (a.1, createdIssue a.2) ∈
          plan.toCreate.map (fun p => (p.1, createdIssue p.2)) :=
        List.mem_map.mpr ⟨a, hin, rfl⟩
      have hget : mapGet (plan.toCreate.map (fun p => (p.1, createdIssue p.2))) a.1 =
          some (createdIssue a.2) := mapGet_of_mem_nodup hCnd hcmem
      refine ⟨createdIssue a.2, ?_, show openStr ≠ closedStr from by decide⟩
      rw [mapGet_append, mapGet_map_value, hg, Option.map_none']
      exact hget
    · have hmem : (a.1, ex) ∈ exV := mapGet_mem hg
      have hhas : mapHas newV a.1 = true := by
        rw [mapHas_eq_isSome]
        exact mapGet_isSome_of_mem (show (a.1, a.2) ∈ newV from ha)
      refine ⟨fmap ex, ?_, ?_⟩
      · rw [mapGet_append, mapGet_map_value, hg, Option.map_some']
      · by_cases hst : ex.state = closedStr
        · rw [hf_reopen a.1 ex hmem hst hhas]
          exact show openStr ≠ closedStr from by decide
        · rw [hf_eq_of ex (hclose_no hmem hhas) (hreopen_no' hmem hst)]
          exact hst
  rw [hM, computePlan, TransitionPlan.mk.injEq]
  refine ⟨?_, ?_, ?_⟩
  · rw [List.filter_eq_nil_iff]
    intro p hp
    simp only [decide_eq_true_eq]
    rintro ⟨hst, hhas⟩
    rcases List.mem_append.mp hp with hp1 | hp2
    · obtain ⟨q, hq, hqe⟩ := List.mem_map.mp hp1
      have hp1eq : p.1 = q.1 := by rw [← hqe]
      have hp2eq : p.2 = fmap q.2 := by rw [← hqe]
      by_cases hqhas : mapHas newV q.1 = true
      · rw [hp1eq, hqhas] at hhas
        simp at hhas
      · have hqhas' : mapHas newV q.1 = false := by
          cases hcase : mapHas newV q.1
          · rfl
          · exact absurd hcase hqhas
        by_cases hqst : q.2.state = openStr
        · have hfc := hf_close q.1 q.2 (show (q.1, q.2) ∈ exV from hq) hqst hqhas'
          rw [hp2eq, hfc] at hst
          have hbad : closedStr = openStr := hst
          exact absurd hbad (by decide)
        · have hfi := hf_eq_of q.2 (hclose_no' (show (q.1, q.2) ∈ exV from hq) hqst)
            (hreopen_no (show (q.1, q.2) ∈ exV from hq) hqhas')
          rw [hp2eq, hfi] at hst
          exact hqst hst
    · obtain ⟨q, hq, hqe⟩ := List.mem_map.mp hp2
      have hp1eq : p.1 = q.1 := by rw [← hqe]
      rw [hplan] at hq
      obtain ⟨hqv, _⟩ := toCreate_mem.mp hq
      have hqhas : mapHas newV q.1 = true := by
        rw [mapHas_eq_isSome]
        exact mapGet_isSome_of_mem (show (q.1, q.2) ∈ newV from hqv)
      rw [hp1eq, hqhas] at hhas
      simp at hhas
  · rw [List.filterMap_eq_nil_iff]
    intro a ha
    obtain ⟨v, hv, hst⟩ := hMget a ha
    rw [hv]
    show (if v.state = closedStr then some (a.1, v) else none) = none
    rw [if_neg hst]
  · rw [List.filterMap_eq_nil_iff]
    intro a ha
    obtain ⟨v, hv, _⟩ := hMget a ha
    rw [hv]

/-- C1: reconcile run twice on the same (newRecords, existingIssues) pair
    yields the same TransitionPlan, and applying the computed plan to the
    issue set and re-running reconcile on the post-state yields the empty plan
    (no creates, reopens, or closes). The snapshot's issue numbers are assumed
    pairwise distinct, as they are gateway-assigned. -/
theorem claim_C1_reconcile_idempotent (rs : List Report) (issues : List TrivyIssue)
    (plan : TransitionPlan) (h : reconcile rs issues = some plan)
    (hnum : (issues.map TrivyIssue.number).Nodup) :
    reconcile rs issues = reconcile rs issues ∧
    reconcile rs (applyPlan plan issues) = some ⟨[], [], []⟩ := by
  refine ⟨rfl, ?_⟩
  rw [reconcile] at h ⊢
  rcases hg : generateIssues rs with _ | gis
  · rw [hg] at h
    simp at h
  · rw [hg] at h
    simp only [Option.map_some', Option.some.injEq] at h ⊢
    rw [← h]
    exact computePlan_applyPlan_empty gis issues hnum

theorem claim_C1_witness :
    reconcile [] [sampleOpenIssue] =
      some ⟨[((("cve-2024-1-libfoo").toList), sampleOpenIssue)], [], []⟩ ∧
    reconcile []
      (applyPlan ⟨[((("cve-2024-1-libfoo").toList), sampleOpenIssue)], [], []⟩
        [sampleOpenIssue]) = some ⟨[], [], []⟩ := by
  constructor
  · decide
  · exact (claim_C1_reconcile_idempotent [] [sampleOpenIssue] _ (by decide) (by decide)).2

/-- C2: every record the parser outputs carries exactly one vulnerability
    entry, and deriving its identifier (src/src/index.ts lines 67-72) always
    succeeds and equals lowercase(vulnerabilityId) + "-" +
    lowercase(packageName). -/
theorem claim_C2_record_identifier (d : ReportDict) (ex : List TrivyIssue)
    (rs : List Report) (h : parseResultsCore d ex = .ok rs) :
    ∀ r ∈ rs, ∃ v, r.vulnerabilities = [v] ∧
      getRecordIdentifier r =
        some (lowerStr v.VulnerabilityID ++ '-' :: lowerStr r.package_name) := by
  intro r hr
  rcases d with ⟨res⟩
  cases res with
  | notList => simp [parseResultsCore] at h
  | list es =>
    simp only [parseResultsCore] at h
    obtain ⟨typ, targ, v, hrv⟩ := parseEntries_ok_mem h r hr
    refine ⟨v, by rw [hrv]; rfl, ?_⟩
    rw [hrv]
    rfl

theorem claim_C2_witness :
    ∃ v, sampleReport.vulnerabilities = [v] ∧
      getRecordIdentifier sampleReport =
        some (lowerStr v.VulnerabilityID ++ '-' :: lowerStr sampleReport.package_name) :=
  claim_C2_record_identifier sampleDict [] sampleParsed (by rfl) sampleReport (by decide)

/-- C3 (amended): for a record whose vulnerabilityId contains no colon and no
    newline, whose packageType contains no space and no newline and is not the
    bare word "package", and whose packageName contains no hyphen and no
    newline, the materialized title has the documented shape and feeding it
    back through the title pattern recovers exactly the identifier derived
    directly from the record. -/
theorem claim_C3_roundtrip_amended (typ targ : List Char) (v : Vulnerability)
    (h1 : ':' ∉ v.VulnerabilityID) (h2 : '\n' ∉ v.VulnerabilityID)
    (h3 : ' ' ∉ typ) (h4 : '\n' ∉ typ) (h5 : typ ≠ pkgWord)
    (h6 : '-' ∉ v.PkgName) (h7 : '\n' ∉ v.PkgName) :
    issueTitle (buildReport typ targ v) v =
      v.VulnerabilityID ++ ':' :: (' ' ::
        (typ ++ (pkgLit ++ (v.PkgName ++ '-' :: v.InstalledVersion)))) ∧
    getIdentifierFromTitle (issueTitle (buildReport typ targ v) v) =
      some (vulnIdentifier v) ∧
    getRecordIdentifier (buildReport typ targ v) = some (vulnIdentifier v) :=
  ⟨issueTitle_decomp typ targ v, title_roundtrip typ targ v h1 h2 h3 h4 h5 h6 h7, rfl⟩

theorem claim_C3_counterexample :
    getIdentifierFromTitle
        (issueTitle (buildReport ("npm").toList ("app").toList hyphenVuln) hyphenVuln) ≠
      some (vulnIdentifier hyphenVuln) := by
  decide

theorem claim_C3_witness :
    getIdentifierFromTitle
        (issueTitle (buildReport ("npm").toList ("app").toList sampleVuln) sampleVuln) =
      some (vulnIdentifier sampleVuln) :=
  (claim_C3_roundtrip_amended ("npm").toList ("app").toList sampleVuln (by decide)
    (by decide) (by decide) (by decide) (by decide) (by decide) (by decide)).2.1

/-- C4 (amended): parseResults returns the null value on a malformed report,
    but ALSO on a well-formed report yielding zero records — the parse-failure
    outcome and a genuine zero-finding scan are returned as the same value,
    not distinguishable ones: parseResults is null exactly when the report is
    malformed or yields zero records. -/
theorem claim_C4_parse_failure_amended (d : ReportDict) (ex : List TrivyIssue) :
    parseResults d ex = none ↔ (malformedReport d ∨ orderedRecords d ex = []) := by
  rcases hc : parseResultsCore d ex with err | rs
  · have hpr : parseResults d ex = none := by
      rw [parseResults, hc]
    have hm : malformedReport d := (parseResultsCore_error_iff d ex).mp ⟨err, hc⟩
    rw [hpr]
    simp [hm]
  · have hpr : parseResults d ex = (if rs.length > 0 then some rs else none) := by
      rw [parseResults, hc]
    have heq : rs = orderedRecords d ex := parseResultsCore_ok_eq hc
    have hnm : ¬ malformedReport d := by
      intro hm
      obtain ⟨err, herr⟩ := (parseResultsCore_error_iff d ex).mpr hm
      rw [hc] at herr
      simp at herr
    rw [hpr]
    by_cases hlen : rs.length > 0
    · rw [if_pos hlen]
      constructor
      · intro h
        simp at h
      · rintro (hm | ho)
        · exact absurd hm hnm
        · rw [← heq] at ho
          rw [ho] at hlen
          simp at hlen
    · rw [if_neg hlen]
      constructor
      · intro _
        right
        rw [← heq]
        cases rs with
        | nil => rfl
        | cons a l => simp at hlen
      · intro _
        rfl

theorem claim_C4_counterexample :
    parseResults ⟨.list []⟩ [] = none ∧ ¬ malformedReport (⟨.list []⟩ : ReportDict) ∧
    parseResults ⟨.notList⟩ [] = none := by
  refine ⟨by decide, ?_, by decide⟩
  intro h
  simp [malformedReport] at h

/-- C5: the identity deriver's title pattern succeeds exactly on titles of the
    shape id ++ ":" ++ type ++ " package " ++ name ++ "-" ++ rest (with no
    newline inside the matched segments), and in particular a title with
    merely a colon prefix such as "foo: bar" is rejected. -/
theorem claim_C5_strict_title_pattern :
    (∀ t : List Char, (getIdentifierFromTitle t).isSome = true ↔
      ∃ a b c d, t = a ++ ':' :: (b ++ (pkgLit ++ (c ++ '-' :: d))) ∧
        '\n' ∉ a ∧ '\n' ∉ b ∧ '\n' ∉ c) ∧
    getIdentifierFromTitle (("foo: bar").toList) = none :=
  ⟨getIdentifierFromTitle_isSome_iff, by decide⟩

/-- C6: the three transition sets of a computed plan are pairwise disjoint
    sets of identifiers. -/
theorem claim_C6_partition_witnessed :
    reconcile [] [sampleOpenIssue] =
      some ⟨[((("cve-2024-1-libfoo").toList), sampleOpenIssue)], [], []⟩ ∧
    (∀ k, k ∈ (TransitionPlan.mk [((("cve-2024-1-libfoo").toList), sampleOpenIssue)]
        [] []).toCreate.map Prod.fst →
      k ∉ (TransitionPlan.mk [((("cve-2024-1-libfoo").toList), sampleOpenIssue)]
        [] []).toReopen.map Prod.fst) :=
  ⟨by decide, (claim_C6_partition [] [sampleOpenIssue] _ (by decide)).1⟩

theorem claim_C7_witness :
    reconcile [] [sampleOpenIssue] =
      some ⟨[((("cve-2024-1-libfoo").toList), sampleOpenIssue)], [], []⟩ ∧
    (∀ p ∈ (TransitionPlan.mk [((("cve-2024-1-libfoo").toList), sampleOpenIssue)]
        [] []).toClose, p.2 ∈ [sampleOpenIssue] ∧ p.2.state = openStr) :=
  ⟨by decide, (claim_C7_state_guards [] [sampleOpenIssue] _ (by decide)).1⟩

theorem claim_C8_witness :
    getIdentifierFromTitle manualIssue.title = none ∧
    reconcile [] ([] ++ manualIssue :: [sampleOpenIssue]) =
      reconcile [] ([] ++ [sampleOpenIssue]) :=
  ⟨by decide, (claim_C8_unidentifiable_safety [] [] [sampleOpenIssue] manualIssue
    (by decide)).1⟩

/-- C9: the parser's try-block throws exactly when the Results field is not a
    list, some entry is not a record, or some entry's Vulnerabilities field is
    present but not a list; an entry lacking Vulnerabilities is skipped, and a
    successful parse returns the records in input order, result-major then
    vulnerability-minor. -/
theorem claim_C9_parser_validation (d : ReportDict) (ex : List TrivyIssue) :
    ((∃ err, parseResultsCore d ex = .error err) ↔ malformedReport d) ∧
    (∀ rs, parseResultsCore d ex = .ok rs → rs = orderedRecords d ex) :=
  ⟨parseResultsCore_error_iff d ex, fun _ h => parseResultsCore_ok_eq h⟩

theorem claim_C9_witness :
    parseResultsCore sampleDict [] = .ok sampleParsed ∧
    sampleParsed = orderedRecords sampleDict [] := by
  have hok : parseResultsCore sampleDict [] = .ok sampleParsed := by rfl
  exact ⟨hok, (claim_C9_parser_validation sampleDict []).2 sampleParsed hok⟩

theorem issueBody_noFix (r : Report) (v : Vulnerability)
    (h : r.package_fixed_version = none) :
    ∃ pre post, issueBody r v = pre ++ (noFixMarker ++ post) := by
  refine ⟨("## Title\n").toList ++ v.VulnTitle ++ ("\n").toList ++
    ("## Description\n").toList ++ v.Description ++ ("\n").toList ++
    ("## Severity\n**").toList ++ v.Severity ++ ("**\n").toList ++
    ("## Fixed in Version\n**").toList,
    ("**\n\n").toList ++
    ("## Primary URL\n").toList ++ v.PrimaryURL ++ ("\n").toList ++
    ("## Additional Information\n").toList ++
    ("**Vulnerability ID:** ").toList ++ v.VulnerabilityID ++ ("\x7d\n").toList ++
    ("**Package Name:** ").toList ++ r.package_name ++ ("\n").toList ++
    ("**Package Version:** ").toList ++ r.package_version ++ ("\n").toList ++
    ("## References\n").toList ++
      (List.intercalate ("\n").toList
        (v.References.map (fun ref => ("- ").toList ++ ref))) ++ ("\n\n").toList, ?_⟩
  rw [issueBody, h]
  simp only [List.append_assoc]

theorem fixable_single_false (i : Issue) (hf : i.hasFix = false) :
    fixableVulnerabilityExists (buildNewVulns [i]) = false := by
  rw [buildNewVulns, buildMap, List.foldl_cons, List.foldl_nil, buildStep]
  rcases hd : getIdentifierFromTitle (Issue.title i) with _ | k
  · rfl
  · simp [fixableVulnerabilityExists, mapSet, hf]

/-- C10: an empty-string FixedVersion is recorded as no fix: the record's
    fixed version is absent exactly as for a missing FixedVersion, the
    materialized issue has hasFix false and carries the "No known fix at this
    time" marker in its body, its title/body/hasFix coincide with those of the
    absent-FixedVersion record, and it contributes nothing to the
    fixable_vulnerability output. -/
theorem claim_C10_empty_fixed_version (typ targ : List Char) (v : Vulnerability)
    (hfv : v.FixedVersion = some []) :
    (buildReport typ targ v).package_fixed_version = none ∧
    ∃ i0 i1, generateIssueOfReport (buildReport typ targ v) = some i0 ∧
      generateIssueOfReport (buildReport typ targ { v with FixedVersion := none }) = some i1 ∧
      i0.hasFix = false ∧
      (∃ pre post, i0.body = pre ++ (noFixMarker ++ post)) ∧
      i0.title = i1.title ∧ i0.body = i1.body ∧ i0.hasFix = i1.hasFix ∧
      fixableVulnerabilityExists (buildNewVulns [i0]) = false := by
  have hpf : (buildReport typ targ v).package_fixed_version = none := by
    show jsOrUndefined v.FixedVersion = none
    rw [hfv]
    rfl
  refine ⟨hpf, ?_⟩
  refine ⟨_, _, rfl, rfl, ?_, ?_, ?_, ?_, ?_, ?_⟩
  · show (buildReport typ targ v).package_fixed_version.isSome = false
    rw [hpf]
    rfl
  · exact issueBody_noFix _ v hpf
  · rfl
  · show issueBody (buildReport typ targ v) v =
      issueBody (buildReport typ targ { v with FixedVersion := none })
        { v with FixedVersion := none }
    rw [issueBody, issueBody, hpf,
      show (buildReport typ targ { v with FixedVersion := none }).package_fixed_version =
        none from rfl]
    rfl
  · show (buildReport typ targ v).package_fixed_version.isSome =
      (buildReport typ targ { v with FixedVersion := none }).package_fixed_version.isSome
    rw [hpf]
    rfl
  · refine fixable_single_false _ ?_
    show (buildReport typ targ v).package_fixed_version.isSome = false
    rw [hpf]
    rfl

theorem claim_C10_witness :
    (buildReport ("npm").toList ("app").toList
      { sampleVuln with FixedVersion := some [] }).package_fixed_version = none :=
  (claim_C10_empty_fixed_version ("npm").toList ("app").toList
    { sampleVuln with FixedVersion := some [] } rfl).1
